import Mathlib

/-!
Shallow embedding of the libcron scheduling engine
(`src/libcron/include/libcron/Cron.h` and
`src/libcron/include/libcron/TaskQueue.h`).

Timestamps and durations are modelled as integers counting milliseconds,
so one second is `1000` and three hours is `10800000`.  The cron-expression
parser (`CronData` / `CronSchedule`) is an external collaborator of the
engine: the engine only ever observes a validity bit and a
"next occurrence strictly after a reference time" partial function, so a
rule is embedded directly as that observable interface.  The `Task` class
itself (`Task.h`) is not part of the provided sources; its operations are
modelled from the spec (section 4.1): `is_expired(now)` is
`next_fire ≤ now`, `time_until_expiry(now)` is `next_fire − now`,
`calculate_next(ref)` asks the rule for the earliest occurrence strictly
after `ref` and on success stores it in `next_fire`, and tasks are ordered
by `next_fire`.
-/

namespace Libcron

/-- External recurrence-rule semantics, as observed by the engine:
the original rule text, the validity bit returned by the parser, and the
"earliest occurrence strictly after a reference time" function
(`none` when the rule has no further occurrence). -/
structure RuleSem where
  text : String
  valid : Bool
  next : Int → Option Int

/-- Well-formedness of an external rule, from the spec (section 6): the
returned occurrence is strictly greater than the reference time. -/
def RuleWF (r : RuleSem) : Prop :=
  ∀ ref v, r.next ref = some v → ref < v

/-- Modelled from the spec: `Task.h` is not among the provided sources.
A task is a name, its recurrence rule and the cached next fire time. -/
structure Task where
  name : String
  rule : RuleSem
  next_fire : Int

/-- Modelled from the spec: `Task::calculate_next(ref)` when the caller
ignores the returned bool (the ≥ 3 h drift branch and
`recalculate_schedule` do).  On success the next fire time is replaced;
on failure the task is left as it was. -/
def Task.recalcKeep (t : Task) (ref : Int) : Task :=
  match t.rule.next ref with
  | some v => { t with next_fire := v }
  | none => t

/-- Modelled from the spec: `Task::is_expired(now)` is `next_fire ≤ now`. -/
def Task.is_expired (t : Task) (now : Int) : Bool :=
  t.next_fire ≤ now

/-- Names of the tasks of a queue, in queue order. -/
def taskNames (l : List Task) : List String :=
  l.map Task.name

/-- TaskQueue::remove (both overloads remove the first task whose name
matches, via std::find_if followed by erase; a no-op when absent). -/
def removeFirstByName (n : String) : List Task → List Task
  | [] => []
  | t :: ts => if t.name = n then ts else t :: removeFirstByName n ts

/-- Queue order used by `TaskQueue::sort` (Task::operator<, by next fire
time). -/
def taskLE (a b : Task) : Prop :=
  a.next_fire ≤ b.next_fire

instance : DecidableRel taskLE := fun a b => Int.decLe a.next_fire b.next_fire

instance : IsTotal Task taskLE := ⟨fun a b => Int.le_total a.next_fire b.next_fire⟩

instance : IsTrans Task taskLE := ⟨fun _ _ _ hab hbc => le_trans hab hbc⟩

/-- TaskQueue::sort — std::sort by `Task::operator<`; modelled by a
sorting function with the same observable contract (a sorted permutation
of the queue). -/
def sortTasks (l : List Task) : List Task :=
  List.insertionSort taskLE l

/-- The queue is in ascending next-fire order. -/
def sortedByNextFire (l : List Task) : Prop :=
  List.Sorted taskLE l

instance (l : List Task) : Decidable (sortedByNextFire l) :=
  List.decidableSorted l

/-- Scheduler engine state (`Cron`): the task queue, the first-tick flag
and the timestamp of the previous accepted tick. -/
structure CronState where
  tasks : List Task
  first_tick : Bool
  last_tick : Int

/-- Number of scheduled tasks (`Cron::count`). -/
def count (st : CronState) : Nat :=
  st.tasks.length

/-- Sub-second debounce at the top of `Cron::tick`: when this is not the
first tick and `|now − last_tick| < 1 s`, `now` is replaced by
`last_tick`. -/
def effectiveNow (st : CronState) (now : Int) : Int :=
  if st.first_tick = false ∧ now - st.last_tick < 1000 ∧ -1000 < now - st.last_tick then
    st.last_tick
  else
    now

/-- Drift classification of `Cron::tick`: on a non-first tick whose
absolute distance to the previous tick is at least three hours, every
task's next fire time is recomputed from the new `now` (the returned
bool of `calculate_next` is ignored there); otherwise the queue is left
untouched. -/
def driftAdjusted (st : CronState) (now : Int) : List Task :=
  if st.first_tick then
    st.tasks
  else
    let diff := now - st.last_tick
    let adiff := if 0 < diff then diff else -diff
    if 10800000 ≤ adiff then
      st.tasks.map (fun t => t.recalcKeep now)
    else
      st.tasks

/-- Execution pass of `Cron::tick`, one loop iteration per call:
`for (size_t i = 0; i < tasks.size(); i++)` — the task at index `i` is
executed when expired, then its next occurrence is recomputed from
`now + 1 s`; when recomputation fails the task is removed in place
(first match by name, as `TaskQueue::remove` does).  The index advances
every iteration even when a removal shifted the remaining tasks down.
Each execution is recorded as the pair (name, fired occurrence).
The `fuel` argument makes the recursion structural; since `i` strictly
increases each iteration and the queue never grows during the pass,
`m.length` iterations always suffice, so `execPass` below is exactly the
source loop. -/
def execLoop (now : Int) : Nat → List Task → Nat → List Task × Nat × List (String × Int)
  | 0, m, _ => (m, 0, [])
  | Nat.succ fuel, m, i =>
    if h : i < m.length then
      let t := m.get ⟨i, h⟩
      if t.next_fire ≤ now then
        match t.rule.next (now + 1000) with
        | some v =>
          let r := execLoop now fuel (m.set i { t with next_fire := v }) (i + 1)
          (r.1, r.2.1 + 1, (t.name, t.next_fire) :: r.2.2)
        | none =>
          let r := execLoop now fuel (removeFirstByName t.name m) (i + 1)
          (r.1, r.2.1 + 1, (t.name, t.next_fire) :: r.2.2)
      else
        execLoop now fuel m (i + 1)
    else
      (m, 0, [])

/-- The execution pass over a whole queue. -/
def execPass (now : Int) (m : List Task) : List Task × Nat × List (String × Int) :=
  execLoop now m.length m 0

/-- Body of `Cron::tick` after the debounce substitution: drift
adjustment, the execution pass (guarded by `!tasks.empty()`), a single
sort when at least one task executed, and the bookkeeping
`first_tick = false`, `last_tick = now`.  Returns the new state, the
execution count and the list of executed (name, occurrence) pairs. -/
def tickCore (st : CronState) (now : Int) : CronState × Nat × List (String × Int) :=
  let m := driftAdjusted st now
  let e := if m.isEmpty then (m, 0, ([] : List (String × Int))) else execPass now m
  let final := if 0 < e.2.1 then sortTasks e.1 else e.1
  (⟨final, false, now⟩, e.2.1, e.2.2)

/-- Cron::tick(now). -/
def tick (st : CronState) (now : Int) : CronState × Nat × List (String × Int) :=
  tickCore st (effectiveNow st now)

/-- Cron::add_schedule (single form).  `nowc` is the clock reading at the
call.  The rule is validated first; on success a task is constructed and
`calculate_next(clock.now())` decides whether it is inserted (followed by
a sort).  The returned bool is the validity bit alone. -/
def add_schedule (st : CronState) (name : String) (r : RuleSem) (nowc : Int) :
    CronState × Bool :=
  if r.valid then
    match r.next nowc with
    | some v =>
      ({ st with tasks := sortTasks (st.tasks ++ [⟨name, r, v⟩]) }, true)
    | none => (st, true)
  else
    (st, false)

/-- Validation loop of the bulk `Cron::add_schedule`: walks the entries in
iteration order while they are valid; returns the first offending
(name, rule text) pair when one is invalid, and the list of constructed
tasks (those whose `calculate_next(clock.now())` succeeded), in order. -/
def scanSchedules (nowc : Int) : List (String × RuleSem) → Option (String × String) × List Task
  | [] => (none, [])
  | (n, r) :: rest =>
    if r.valid then
      let s := scanSchedules nowc rest
      match r.next nowc with
      | some v => (s.1, ⟨n, r, v⟩ :: s.2)
      | none => s
    else
      (some (n, r.text), [])

/-- Cron::add_schedule (bulk form over a name→rule mapping, modelled as an
association list in iteration order).  Tasks are pushed and the queue
sorted only when every entry was valid and at least one task was
constructed; the result is (all_valid, first_invalid_name,
first_invalid_rule). -/
def add_schedule_map (st : CronState) (entries : List (String × RuleSem)) (nowc : Int) :
    CronState × (Bool × String × String) :=
  let s := scanSchedules nowc entries
  match s.1 with
  | some p => (st, (false, p.1, p.2))
  | none =>
    if s.2.isEmpty then
      (st, (true, "", ""))
    else
      ({ st with tasks := sortTasks (st.tasks ++ s.2) }, (true, "", ""))

/-- Cron::remove_schedule(name). -/
def remove_schedule (st : CronState) (n : String) : CronState :=
  { st with tasks := removeFirstByName n st.tasks }

/-- Cron::clear_schedules. -/
def clear_schedules (st : CronState) : CronState :=
  { st with tasks := [] }

/-- Cron::recalculate_schedule: every task recomputes from
`clock.now() + 1 s` (result ignored), then the queue is sorted. -/
def recalculate_schedule (st : CronState) (nowc : Int) : CronState :=
  { st with tasks := sortTasks (st.tasks.map (fun t => t.recalcKeep (nowc + 1000))) }

/-- Value of `std::numeric_limits<std::chrono::minutes>::max()` as the
source assigns it: `numeric_limits` has no specialization for chrono
durations, so the primary template applies and its `max()` returns a
value-initialized duration — zero. -/
def emptyQueueSentinel : Int := 0

/-- Cron::time_until_next: the sentinel for an empty queue, otherwise
`top().time_until_expiry(clock.now())`, i.e. the front task's
`next_fire − now`. -/
def time_until_next (st : CronState) (nowc : Int) : Int :=
  match st.tasks with
  | [] => emptyQueueSentinel
  | t :: _ => t.next_fire - nowc

/-- Every rule in a queue satisfies the external contract of section 6. -/
def AllWF (m : List Task) : Prop :=
  ∀ u ∈ m, RuleWF u.rule

/-- First invalid (name, rule text) pair of a bulk registration, in
iteration order; `none` when every rule is valid. -/
def firstInvalid : List (String × RuleSem) → Option (String × String)
  | [] => none
  | (n, r) :: rest => if r.valid then firstInvalid rest else some (n, r.text)

/-- Tasks constructed by an all-valid bulk registration: one task per
entry whose rule has an occurrence after the clock reading, in entry
order. -/
def constructedTasks (nowc : Int) (entries : List (String × RuleSem)) : List Task :=
  entries.filterMap (fun p => (p.2.next nowc).map (fun v => ⟨p.1, p.2, v⟩))

/-- Concrete rule whose schedule is exhausted: valid, but no further
occurrence exists (used for concrete instances below). -/
def ruleExhausted : RuleSem := ⟨"exhausted", true, fun _ => none⟩

/-- Concrete rule firing `k` after any reference time. -/
def rulePlus (k : Int) : RuleSem := ⟨"plus", true, fun u => some (u + k)⟩

/-- Concrete rule rejected by the external validator. -/
def ruleBad : RuleSem := ⟨"* * bad", false, fun _ => none⟩

lemma rulePlus_wf (k : Int) (hk : 0 < k) : RuleWF (rulePlus k) := by
  intro ref v h
  simp only [rulePlus, Option.some.injEq] at h
  omega

lemma Task.name_recalcKeep (t : Task) (ref : Int) : (t.recalcKeep ref).name = t.name := by
  unfold Task.recalcKeep
  cases t.rule.next ref <;> rfl

lemma Task.rule_recalcKeep (t : Task) (ref : Int) : (t.recalcKeep ref).rule = t.rule := by
  unfold Task.recalcKeep
  cases t.rule.next ref <;> rfl

lemma removeFirstByName_sublist (n : String) (m : List Task) :
    (removeFirstByName n m).Sublist m := by
  induction m with
  | nil => exact List.Sublist.refl _
  | cons t ts ih =>
    unfold removeFirstByName
    by_cases h : t.name = n
    · rw [if_pos h]
      exact (List.Sublist.refl ts).cons t
    · rw [if_neg h]
      exact ih.cons₂ t

lemma mem_of_mem_removeFirstByName {n : String} {m : List Task} {u : Task}
    (h : u ∈ removeFirstByName n m) : u ∈ m :=
  (removeFirstByName_sublist n m).subset h

lemma mem_removeFirstByName_of_ne {n : String} {m : List Task} {u : Task}
    (hu : u ∈ m) (hne : u.name ≠ n) : u ∈ removeFirstByName n m := by
  induction m with
  | nil => exact absurd hu (List.not_mem_nil u)
  | cons t ts ih =>
    unfold removeFirstByName
    by_cases h : t.name = n
    · rw [if_pos h]
      rcases List.mem_cons.mp hu with rfl | hmem
      · exact absurd h hne
      · exact hmem
    · rw [if_neg h]
      rcases List.mem_cons.mp hu with rfl | hmem
      · exact List.mem_cons_self _ _
      · exact List.mem_cons_of_mem _ (ih hmem)

lemma taskNames_removeFirstByName_sublist (n : String) (m : List Task) :
    (taskNames (removeFirstByName n m)).Sublist (taskNames m) :=
  (removeFirstByName_sublist n m).map Task.name

lemma name_ne_of_mem_removeFirstByName {n : String} {m : List Task} {u : Task}
    (hnd : (taskNames m).Nodup) (hu : u ∈ removeFirstByName n m) : u.name ≠ n := by
  induction m with
  | nil => exact absurd hu (List.not_mem_nil u)
  | cons t ts ih =>
    have hnd' : t.name ∉ taskNames ts ∧ (taskNames ts).Nodup := by
      simpa [taskNames, List.nodup_cons] using hnd
    unfold removeFirstByName at hu
    by_cases h : t.name = n
    · rw [if_pos h] at hu
      intro he
      exact hnd'.1 (h ▸ he ▸ List.mem_map_of_mem Task.name hu)
    · rw [if_neg h] at hu
      rcases List.mem_cons.mp hu with rfl | hmem
      · exact h
      · exact ih hnd'.2 hmem

lemma sortTasks_perm (l : List Task) : (sortTasks l).Perm l :=
  List.perm_insertionSort taskLE l

lemma sortedByNextFire_sortTasks (l : List Task) : sortedByNextFire (sortTasks l) :=
  List.sorted_insertionSort taskLE l

lemma mem_sortTasks {u : Task} {l : List Task} : u ∈ sortTasks l ↔ u ∈ l :=
  (sortTasks_perm l).mem_iff

lemma taskNames_sortTasks_perm (l : List Task) :
    (taskNames (sortTasks l)).Perm (taskNames l) :=
  (sortTasks_perm l).map Task.name

lemma setSelf : ∀ (l : List String) (i : Nat) (h : i < l.length), l.set i l[i] = l
  | _ :: _, 0, _ => rfl
  | a :: as, i + 1, h => by
    have h' : i < as.length := by simpa using h
    show a :: as.set i as[i] = a :: as
    rw [setSelf as i h']

lemma taskNames_set (m : List Task) (i : Nat) (x : Task) :
    taskNames (m.set i x) = (taskNames m).set i x.name := by
  simp [taskNames, List.map_set]

lemma nodup_taskNames_set {m : List Task} {i : Nat} {x : Task}
    (hi : i < m.length) (hx : x.name = m[i].name) (hnd : (taskNames m).Nodup) :
    (taskNames (m.set i x)).Nodup := by
  have hlen : i < (taskNames m).length := by simpa [taskNames] using hi
  have : taskNames (m.set i x) = taskNames m := by
    rw [taskNames_set, hx, show m[i].name = (taskNames m)[i] from (List.getElem_map Task.name).symm]
    exact setSelf (taskNames m) i hlen
  rw [this]
  exact hnd

lemma mem_set_of_ne_get {m : List Task} {i : Nat} (hi : i < m.length) {x t : Task}
    (ht : t ∈ m) (hne : m[i] ≠ t) : t ∈ m.set i x := by
  obtain ⟨j, hj, he⟩ := List.mem_iff_getElem.mp ht
  apply List.mem_iff_getElem.mpr
  refine ⟨j, by simpa using hj, ?_⟩
  have hij : i ≠ j := by
    rintro rfl
    exact hne he
  rw [List.getElem_set_ne hij]
  exact he

lemma mem_set_cases {m : List Task} {i : Nat} {x u : Task}
    (hu : u ∈ m.set i x) (hi : i < m.length) :
    u = x ∨ ∃ j, ∃ hj : j < m.length, j ≠ i ∧ m[j] = u := by
  obtain ⟨j, hj, he⟩ := List.mem_iff_getElem.mp hu
  have hj' : j < m.length := by simpa using hj
  by_cases hji : j = i
  · subst hji
    rw [List.getElem_set_self] at he
    exact Or.inl he.symm
  · refine Or.inr ⟨j, hj', hji, ?_⟩
    rw [List.getElem_set_ne (Ne.symm hji)] at he
    exact he

lemma name_position_inj {m : List Task} (hnd : (taskNames m).Nodup) {i j : Nat}
    (hi : i < m.length) (hj : j < m.length) (h : m[i].name = m[j].name) : i = j := by
  have hi' : i < (taskNames m).length := by simpa [taskNames] using hi
  have hj' : j < (taskNames m).length := by simpa [taskNames] using hj
  have hg : (taskNames m)[i] = (taskNames m)[j] := by
    simpa [taskNames, List.getElem_map] using h
  exact (hnd.getElem_inj_iff).mp hg

lemma execLoop_count_zero (now : Int) :
    ∀ (fuel : Nat) (m : List Task) (i : Nat),
      (execLoop now fuel m i).2.1 = 0 → (execLoop now fuel m i).1 = m := by
  intro fuel
  induction fuel with
  | zero => intro m i _; rfl
  | succ fuel ih =>
    intro m i h
    by_cases hlt : i < m.length
    · by_cases hexp : (m.get ⟨i, hlt⟩).next_fire ≤ now
      · cases hnext : (m.get ⟨i, hlt⟩).rule.next (now + 1000) with
        | some v =>
          simp only [execLoop, dif_pos hlt, if_pos hexp, hnext] at h
          exact absurd h (Nat.succ_ne_zero _)
        | none =>
          simp only [execLoop, dif_pos hlt, if_pos hexp, hnext] at h
          exact absurd h (Nat.succ_ne_zero _)
      · simp only [execLoop, dif_pos hlt, if_neg hexp] at h ⊢
        exact ih _ _ h
    · simp only [execLoop, dif_neg hlt]

lemma execLoop_allWF (now : Int) :
    ∀ (fuel : Nat) (m : List Task) (i : Nat),
      AllWF m → AllWF (execLoop now fuel m i).1 := by
  intro fuel
  induction fuel with
  | zero => intro m i hwf; exact hwf
  | succ fuel ih =>
    intro m i hwf
    by_cases hlt : i < m.length
    · by_cases hexp : (m.get ⟨i, hlt⟩).next_fire ≤ now
      · cases hnext : (m.get ⟨i, hlt⟩).rule.next (now + 1000) with
        | some v =>
          simp only [execLoop, dif_pos hlt, if_pos hexp, hnext]
          apply ih
          intro u hu
          rcases List.mem_or_eq_of_mem_set hu with hm | rfl
          · exact hwf u hm
          · exact hwf (m.get ⟨i, hlt⟩) (List.get_mem m i hlt)
        | none =>
          simp only [execLoop, dif_pos hlt, if_pos hexp, hnext]
          apply ih
          intro u hu
          exact hwf u (mem_of_mem_removeFirstByName hu)
      · simp only [execLoop, dif_pos hlt, if_neg hexp]
        exact ih _ _ hwf
    · simp only [execLoop, dif_neg hlt]
      exact hwf

lemma execLoop_nodup (now : Int) :
    ∀ (fuel : Nat) (m : List Task) (i : Nat),
      (taskNames m).Nodup → (taskNames (execLoop now fuel m i).1).Nodup := by
  intro fuel
  induction fuel with
  | zero => intro m i hnd; exact hnd
  | succ fuel ih =>
    intro m i hnd
    by_cases hlt : i < m.length
    · by_cases hexp : (m.get ⟨i, hlt⟩).next_fire ≤ now
      · cases hnext : (m.get ⟨i, hlt⟩).rule.next (now + 1000) with
        | some v =>
          simp only [execLoop, dif_pos hlt, if_pos hexp, hnext]
          exact ih _ _ (nodup_taskNames_set hlt rfl hnd)
        | none =>
          simp only [execLoop, dif_pos hlt, if_pos hexp, hnext]
          exact ih _ _ ((taskNames_removeFirstByName_sublist _ _).nodup hnd)
      · simp only [execLoop, dif_pos hlt, if_neg hexp]
        exact ih _ _ hnd
    · simp only [execLoop, dif_neg hlt]
      exact hnd

lemma execLoop_keeps_future (now : Int) :
    ∀ (fuel : Nat) (m : List Task) (i : Nat) (t : Task),
      (taskNames m).Nodup → t ∈ m → now < t.next_fire →
      t ∈ (execLoop now fuel m i).1 ∧ ∀ v, (t.name, v) ∉ (execLoop now fuel m i).2.2 := by
  intro fuel
  induction fuel with
  | zero =>
    intro m i t _ ht _
    exact ⟨ht, by intro v hv; exact absurd hv (List.not_mem_nil _)⟩
  | succ fuel ih =>
    intro m i t hnd ht hfut
    by_cases hlt : i < m.length
    · by_cases hexp : (m.get ⟨i, hlt⟩).next_fire ≤ now
      · have hst : m.get ⟨i, hlt⟩ ≠ t := by
          intro he
          rw [he] at hexp
          omega
        have hsm : m.get ⟨i, hlt⟩ ∈ m := List.get_mem m i hlt
        have hname : (m.get ⟨i, hlt⟩).name ≠ t.name := by
          intro he
          exact hst (List.inj_on_of_nodup_map (by simpa [taskNames] using hnd) hsm ht he)
        cases hnext : (m.get ⟨i, hlt⟩).rule.next (now + 1000) with
        | some v =>
          have hmem : t ∈ m.set i { m.get ⟨i, hlt⟩ with next_fire := v } :=
            mem_set_of_ne_get hlt ht hst
          have hnd' := nodup_taskNames_set (x := { m.get ⟨i, hlt⟩ with next_fire := v })
            hlt rfl hnd
          obtain ⟨h1, h2⟩ := ih _ (i + 1) t hnd' hmem hfut
          constructor
          · simpa only [execLoop, dif_pos hlt, if_pos hexp, hnext] using h1
          · intro w hw
            simp only [execLoop, dif_pos hlt, if_pos hexp, hnext, List.mem_cons] at hw
            rcases hw with he | hw
            · exact hname (congrArg Prod.fst he).symm
            · exact h2 w hw
        | none =>
          have hmem : t ∈ removeFirstByName (m.get ⟨i, hlt⟩).name m :=
            mem_removeFirstByName_of_ne ht (Ne.symm hname)
          have hnd' := (taskNames_removeFirstByName_sublist (m.get ⟨i, hlt⟩).name m).nodup hnd
          obtain ⟨h1, h2⟩ := ih _ (i + 1) t hnd' hmem hfut
          constructor
          · simpa only [execLoop, dif_pos hlt, if_pos hexp, hnext] using h1
          · intro w hw
            simp only [execLoop, dif_pos hlt, if_pos hexp, hnext, List.mem_cons] at hw
            rcases hw with he | hw
            · exact hname (congrArg Prod.fst he).symm
            · exact h2 w hw
      · obtain ⟨h1, h2⟩ := ih m (i + 1) t hnd ht hfut
        constructor
        · simpa only [execLoop, dif_pos hlt, if_neg hexp] using h1
        · intro w hw
          simp only [execLoop, dif_pos hlt, if_neg hexp] at hw
          exact h2 w hw
    · constructor
      · simpa only [execLoop, dif_neg hlt] using ht
      · intro w hw
        simp only [execLoop, dif_neg hlt] at hw
        exact absurd hw (List.not_mem_nil _)

lemma execLoop_executed_src (now : Int) :
    ∀ (fuel : Nat) (m : List Task) (i : Nat),
      AllWF m → ∀ n v, (n, v) ∈ (execLoop now fuel m i).2.2 →
      ∃ u ∈ m, u.name = n ∧ u.next_fire = v ∧ v ≤ now := by
  intro fuel
  induction fuel with
  | zero =>
    intro m i _ n v hv
    exact absurd hv (List.not_mem_nil _)
  | succ fuel ih =>
    intro m i hwf n v hv
    by_cases hlt : i < m.length
    · by_cases hexp : (m.get ⟨i, hlt⟩).next_fire ≤ now
      · cases hnext : (m.get ⟨i, hlt⟩).rule.next (now + 1000) with
        | some w =>
          simp only [execLoop, dif_pos hlt, if_pos hexp, hnext, List.mem_cons] at hv
          rcases hv with he | hv
          · obtain ⟨hn, hv⟩ := Prod.mk.injEq .. ▸ he
            exact ⟨m.get ⟨i, hlt⟩, List.get_mem m i hlt, hn.symm, hv.symm, by omega⟩
          · have hwf' : AllWF (m.set i { m.get ⟨i, hlt⟩ with next_fire := w }) := by
              intro u hu
              rcases List.mem_or_eq_of_mem_set hu with hm | rfl
              · exact hwf u hm
              · exact hwf (m.get ⟨i, hlt⟩) (List.get_mem m i hlt)
            obtain ⟨u, hu, hun, hunf, hvle⟩ := ih _ (i + 1) hwf' n v hv
            rcases List.mem_or_eq_of_mem_set hu with hm | rfl
            · exact ⟨u, hm, hun, hunf, hvle⟩
            · have hgt : now + 1000 < w :=
                hwf (m.get ⟨i, hlt⟩) (List.get_mem m i hlt) (now + 1000) w hnext
              rw [show ({ m.get ⟨i, hlt⟩ with next_fire := w } : Task).next_fire = w from rfl] at hunf
              omega
        | none =>
          simp only [execLoop, dif_pos hlt, if_pos hexp, hnext, List.mem_cons] at hv
          rcases hv with he | hv
          · obtain ⟨hn, hv⟩ := Prod.mk.injEq .. ▸ he
            exact ⟨m.get ⟨i, hlt⟩, List.get_mem m i hlt, hn.symm, hv.symm, by omega⟩
          · have hwf' : AllWF (removeFirstByName (m.get ⟨i, hlt⟩).name m) := by
              intro u hu
              exact hwf u (mem_of_mem_removeFirstByName hu)
            obtain ⟨u, hu, hun, hunf, hvle⟩ := ih _ (i + 1) hwf' n v hv
            exact ⟨u, mem_of_mem_removeFirstByName hu, hun, hunf, hvle⟩
      · simp only [execLoop, dif_pos hlt, if_neg hexp] at hv
        exact ih m (i + 1) hwf n v hv
    · simp only [execLoop, dif_neg hlt] at hv
      exact absurd hv (List.not_mem_nil _)

lemma execLoop_name_future (now : Int) :
    ∀ (fuel : Nat) (m : List Task) (i : Nat) (n : String),
      AllWF m → (∀ u ∈ m, u.name = n → now < u.next_fire) →
      ∀ u ∈ (execLoop now fuel m i).1, u.name = n → now < u.next_fire := by
  intro fuel
  induction fuel with
  | zero => intro m i n _ hp u hu hn; exact hp u hu hn
  | succ fuel ih =>
    intro m i n hwf hp u hu hn
    by_cases hlt : i < m.length
    · by_cases hexp : (m.get ⟨i, hlt⟩).next_fire ≤ now
      · cases hnext : (m.get ⟨i, hlt⟩).rule.next (now + 1000) with
        | some w =>
          simp only [execLoop, dif_pos hlt, if_pos hexp, hnext] at hu
          have hgt : now + 1000 < w :=
            hwf (m.get ⟨i, hlt⟩) (List.get_mem m i hlt) (now + 1000) w hnext
          have hwf' : AllWF (m.set i { m.get ⟨i, hlt⟩ with next_fire := w }) := by
            intro y hy
            rcases List.mem_or_eq_of_mem_set hy with hm | rfl
            · exact hwf y hm
            · exact hwf (m.get ⟨i, hlt⟩) (List.get_mem m i hlt)
          have hp' : ∀ y ∈ m.set i { m.get ⟨i, hlt⟩ with next_fire := w },
              y.name = n → now < y.next_fire := by
            intro y hy hyn
            rcases List.mem_or_eq_of_mem_set hy with hm | rfl
            · exact hp y hm hyn
            · show now < w
              omega
          exact ih _ (i + 1) n hwf' hp' u hu hn
        | none =>
          simp only [execLoop, dif_pos hlt, if_pos hexp, hnext] at hu
          have hwf' : AllWF (removeFirstByName (m.get ⟨i, hlt⟩).name m) := by
            intro y hy
            exact hwf y (mem_of_mem_removeFirstByName hy)
          have hp' : ∀ y ∈ removeFirstByName (m.get ⟨i, hlt⟩).name m,
              y.name = n → now < y.next_fire := by
            intro y hy hyn
            exact hp y (mem_of_mem_removeFirstByName hy) hyn
          exact ih _ (i + 1) n hwf' hp' u hu hn
      · simp only [execLoop, dif_pos hlt, if_neg hexp] at hu
        exact ih m (i + 1) n hwf hp u hu hn
    · simp only [execLoop, dif_neg hlt] at hu
      exact hp u hu hn

lemma execLoop_future_or_quiet (now : Int) :
    ∀ (fuel : Nat) (m : List Task) (i : Nat),
      AllWF m → (taskNames m).Nodup →
      ∀ u ∈ (execLoop now fuel m i).1,
        now < u.next_fire ∨ ∀ v, (u.name, v) ∉ (execLoop now fuel m i).2.2 := by
  intro fuel
  induction fuel with
  | zero =>
    intro m i _ _ u _
    exact Or.inr (fun v hv => absurd hv (List.not_mem_nil _))
  | succ fuel ih =>
    intro m i hwf hnd u hu
    by_cases hlt : i < m.length
    · by_cases hexp : (m.get ⟨i, hlt⟩).next_fire ≤ now
      · cases hnext : (m.get ⟨i, hlt⟩).rule.next (now + 1000) with
        | some w =>
          have hgt : now + 1000 < w :=
            hwf (m.get ⟨i, hlt⟩) (List.get_mem m i hlt) (now + 1000) w hnext
          have hwf' : AllWF (m.set i { m.get ⟨i, hlt⟩ with next_fire := w }) := by
            intro y hy
            rcases List.mem_or_eq_of_mem_set hy with hm | rfl
            · exact hwf y hm
            · exact hwf (m.get ⟨i, hlt⟩) (List.get_mem m i hlt)
          have hnd' := nodup_taskNames_set (x := { m.get ⟨i, hlt⟩ with next_fire := w })
            hlt rfl hnd
          simp only [execLoop, dif_pos hlt, if_pos hexp, hnext] at hu ⊢
          by_cases hun : u.name = (m.get ⟨i, hlt⟩).name
          · left
            have hp : ∀ y ∈ m.set i { m.get ⟨i, hlt⟩ with next_fire := w },
                y.name = (m.get ⟨i, hlt⟩).name → now < y.next_fire := by
              intro y hy hyn
              rcases mem_set_cases hy hlt with rfl | ⟨j, hj, hji, hjy⟩
              · show now < w
                omega
              · have : j = i := name_position_inj hnd hj hlt (by rw [hjy]; exact hyn)
                exact absurd this hji
            exact execLoop_name_future now fuel _ (i + 1) (m.get ⟨i, hlt⟩).name hwf' hp u hu hun
          · rcases ih _ (i + 1) hwf' hnd' u hu with hf | hq
            · exact Or.inl hf
            · right
              intro v hv
              rcases List.mem_cons.mp hv with he | hv
              · exact hun (congrArg Prod.fst he)
              · exact hq v hv
        | none =>
          have hwf' : AllWF (removeFirstByName (m.get ⟨i, hlt⟩).name m) := by
            intro y hy
            exact hwf y (mem_of_mem_removeFirstByName hy)
          have hnd' := (taskNames_removeFirstByName_sublist (m.get ⟨i, hlt⟩).name m).nodup hnd
          simp only [execLoop, dif_pos hlt, if_pos hexp, hnext] at hu ⊢
          by_cases hun : u.name = (m.get ⟨i, hlt⟩).name
          · left
            have hp : ∀ y ∈ removeFirstByName (m.get ⟨i, hlt⟩).name m,
                y.name = (m.get ⟨i, hlt⟩).name → now < y.next_fire := by
              intro y hy hyn
              exact absurd hyn (name_ne_of_mem_removeFirstByName hnd hy)
            exact execLoop_name_future now fuel _ (i + 1) (m.get ⟨i, hlt⟩).name hwf' hp u hu hun
          · rcases ih _ (i + 1) hwf' hnd' u hu with hf | hq
            · exact Or.inl hf
            · right
              intro v hv
              rcases List.mem_cons.mp hv with he | hv
              · exact hun (congrArg Prod.fst he)
              · exact hq v hv
      · simp only [execLoop, dif_pos hlt, if_neg hexp] at hu ⊢
        exact ih m (i + 1) hwf hnd u hu
    · simp only [execLoop, dif_neg hlt]
      exact Or.inr (fun v hv => absurd hv (List.not_mem_nil _))

lemma exec_guard (now : Int) (m : List Task) :
    (if m.isEmpty then (m, 0, ([] : List (String × Int))) else execPass now m) =
      execPass now m := by
  cases m <;> rfl

lemma tickCore_snd (st : CronState) (now : Int) :
    (tickCore st now).2 = (execPass now (driftAdjusted st now)).2 := by
  simp only [tickCore, exec_guard]

lemma tickCore_tasks (st : CronState) (now : Int) :
    (tickCore st now).1.tasks =
      (if 0 < (execPass now (driftAdjusted st now)).2.1
       then sortTasks (execPass now (driftAdjusted st now)).1
       else (execPass now (driftAdjusted st now)).1) := by
  simp only [tickCore, exec_guard]

lemma tickCore_first_tick (st : CronState) (now : Int) :
    (tickCore st now).1.first_tick = false := rfl

lemma tickCore_last_tick (st : CronState) (now : Int) :
    (tickCore st now).1.last_tick = now := rfl

lemma tick_first_tick (st : CronState) (now : Int) :
    (tick st now).1.first_tick = false := rfl

lemma tick_last_tick (st : CronState) (now : Int) :
    (tick st now).1.last_tick = effectiveNow st now := rfl

lemma mem_tickCore_tasks {st : CronState} {now : Int} {u : Task} :
    u ∈ (tickCore st now).1.tasks ↔ u ∈ (execPass now (driftAdjusted st now)).1 := by
  rw [tickCore_tasks]
  split
  · exact mem_sortTasks
  · exact Iff.rfl

lemma effectiveNow_clamp (st : CronState) (now : Int) (hf : st.first_tick = false)
    (h1 : now - st.last_tick < 1000) (h2 : -1000 < now - st.last_tick) :
    effectiveNow st now = st.last_tick := by
  unfold effectiveNow
  rw [if_pos ⟨hf, h1, h2⟩]

lemma effectiveNow_self_last (st : CronState) :
    effectiveNow st st.last_tick = st.last_tick := by
  unfold effectiveNow
  split <;> rfl

lemma effectiveNow_large (st : CronState) (now : Int)
    (hd : 10800000 ≤ now - st.last_tick ∨ 10800000 ≤ st.last_tick - now) :
    effectiveNow st now = now := by
  unfold effectiveNow
  rw [if_neg]
  rintro ⟨-, h1, h2⟩
  omega

lemma driftAdjusted_first (st : CronState) (now : Int) (hf : st.first_tick = true) :
    driftAdjusted st now = st.tasks := by
  unfold driftAdjusted
  rw [if_pos hf]

lemma driftAdjusted_small (st : CronState) (now : Int) (hf : st.first_tick = false)
    (h1 : now - st.last_tick < 10800000) (h2 : -10800000 < now - st.last_tick) :
    driftAdjusted st now = st.tasks := by
  unfold driftAdjusted
  rw [hf]
  simp only [Bool.false_eq_true, if_false]
  rw [if_neg]
  split <;> omega

lemma driftAdjusted_large (st : CronState) (now : Int) (hf : st.first_tick = false)
    (hd : 10800000 ≤ now - st.last_tick ∨ 10800000 ≤ st.last_tick - now) :
    driftAdjusted st now = st.tasks.map (fun t => t.recalcKeep now) := by
  unfold driftAdjusted
  rw [hf]
  simp only [Bool.false_eq_true, if_false]
  rw [if_pos]
  split <;> omega

lemma driftAdjusted_effective_small (st : CronState) (now : Int)
    (hf : st.first_tick = false)
    (h1 : now - st.last_tick < 10800000) (h2 : -10800000 < now - st.last_tick) :
    driftAdjusted st (effectiveNow st now) = st.tasks := by
  unfold effectiveNow
  split
  · exact driftAdjusted_small st _ hf (by omega) (by omega)
  · exact driftAdjusted_small st now hf h1 h2

lemma taskNames_driftAdjusted (st : CronState) (now : Int) :
    taskNames (driftAdjusted st now) = taskNames st.tasks := by
  unfold driftAdjusted
  split
  · rfl
  · dsimp only
    split
    all_goals split
    all_goals first
      | rfl
      | simp [taskNames, List.map_map, Function.comp_def, Task.name_recalcKeep]

lemma allWF_driftAdjusted (st : CronState) (now : Int) (h : AllWF st.tasks) :
    AllWF (driftAdjusted st now) := by
  unfold driftAdjusted
  split
  · exact h
  · dsimp only
    split
    all_goals split
    all_goals first
      | exact h
      | (intro u hu
         obtain ⟨t, ht, rfl⟩ := List.mem_map.mp hu
         rw [Task.rule_recalcKeep]
         exact h t ht)

/-- Claim C1 (code bug, failing input): the claim says every task expired at
the start of the execution pass is executed exactly once in that tick and the
count equals the number of executions, even when another expired task is
retired earlier in the same pass.  On the queue [a (expired, rule exhausted),
b (expired)] at now = 100, task a executes and is retired, the in-place
removal shifts b into the vacated index, the loop index advances past it, and
b — although expired and a member at the start of the pass — is never
executed: the count is 1, not 2, and only ("a", 50) is recorded. -/
theorem tick_skips_expired_task_after_retirement :
    (tick ⟨[⟨"a", ruleExhausted, 50⟩, ⟨"b", rulePlus 60, 60⟩], true, 0⟩ 100).2.1 = 1 ∧
    (tick ⟨[⟨"a", ruleExhausted, 50⟩, ⟨"b", rulePlus 60, 60⟩], true, 0⟩ 100).2.2 = [("a", 50)] ∧
    taskNames (tick ⟨[⟨"a", ruleExhausted, 50⟩, ⟨"b", rulePlus 60, 60⟩], true, 0⟩ 100).1.tasks = ["b"] ∧
    (⟨"b", rulePlus 60, 60⟩ : Task).is_expired 100 = true := by
  refine ⟨rfl, rfl, rfl, rfl⟩

/-- Claim C7: calling the single-form add_schedule with a rule that fails
external validation returns failure and mutates no engine state: the state is
returned unchanged (so every existing task's next fire time is unchanged) and
count is unchanged. -/
theorem add_schedule_invalid_no_mutation (st : CronState) (n : String) (r : RuleSem)
    (nowc : Int) (h : r.valid = false) :
    add_schedule st n r nowc = (st, false) ∧
    count (add_schedule st n r nowc).1 = count st := by
  have he : add_schedule st n r nowc = (st, false) := by
    simp [add_schedule, h]
  exact ⟨he, by rw [he]⟩

theorem add_schedule_invalid_no_mutation_witness :
    add_schedule ⟨[], true, 0⟩ "x" ruleBad 0 = (⟨[], true, 0⟩, false) ∧
    count (add_schedule ⟨[], true, 0⟩ "x" ruleBad 0).1 = count ⟨[], true, 0⟩ :=
  add_schedule_invalid_no_mutation ⟨[], true, 0⟩ "x" ruleBad 0 rfl

/-- Claim C10: the single-form add_schedule returns true whenever the rule
passes external validation, even when calculate_next at the clock reading
finds no future occurrence; in that case no task is inserted and the queue
(whole state) is unchanged, so a true return does not imply count grew. -/
theorem add_schedule_valid_no_occurrence (st : CronState) (n : String) (r : RuleSem)
    (nowc : Int) (hv : r.valid = true) (hn : r.next nowc = none) :
    add_schedule st n r nowc = (st, true) ∧
    count (add_schedule st n r nowc).1 = count st := by
  have he : add_schedule st n r nowc = (st, true) := by
    simp [add_schedule, hv, hn]
  exact ⟨he, by rw [he]⟩

theorem add_schedule_valid_no_occurrence_witness :
    add_schedule ⟨[], true, 0⟩ "x" ruleExhausted 0 = (⟨[], true, 0⟩, true) ∧
    count (add_schedule ⟨[], true, 0⟩ "x" ruleExhausted 0).1 = count ⟨[], true, 0⟩ :=
  add_schedule_valid_no_occurrence ⟨[], true, 0⟩ "x" ruleExhausted 0 rfl rfl

/-- Claim C8 (code bug, failing input): the claim says time_until_next
returns an effectively-infinite sentinel on an empty queue.  The source
assigns std::numeric_limits<std::chrono::minutes>::max(), but numeric_limits
has no specialization for chrono durations, so the primary template's max()
yields a value-initialized — zero — duration: the empty-queue result is 0,
which is even smaller than the remaining time of any future-dated task.  The
nonempty case does return top().time_until_expiry(now). -/
theorem time_until_next_empty_not_infinite :
    time_until_next ⟨[], false, 0⟩ 12345 = 0 ∧
    time_until_next ⟨[⟨"a", rulePlus 60, 999999999⟩], false, 0⟩ 12345 = 999999999 - 12345 ∧
    time_until_next ⟨[], false, 0⟩ 12345 <
      time_until_next ⟨[⟨"a", rulePlus 60, 999999999⟩], false, 0⟩ 12345 := by
  refine ⟨rfl, rfl, by decide⟩

/-- Claim C9 (counterexample): add_schedule performs no duplicate-name
check, so registering a name already present in the queue yields two member
tasks bearing that name, refuting the claimed no-duplicate invariant. -/
theorem add_schedule_creates_duplicate_name :
    taskNames (add_schedule ⟨[⟨"a", rulePlus 60, 10⟩], true, 0⟩ "a" (rulePlus 5) 0).1.tasks
      = ["a", "a"] ∧
    ¬ (taskNames (add_schedule ⟨[⟨"a", rulePlus 60, 10⟩], true, 0⟩ "a" (rulePlus 5) 0).1.tasks).Nodup := by
  exact ⟨by decide, by decide⟩

/-- Claim C3 (counterexample): a tick classified as a ≥ 3 h clock
correction recomputes every task's next fire time but only sorts when at
least one task executed; starting from a sorted two-task queue whose rules
invert the order on recomputation and fire nothing, the queue ends the tick
unsorted, refuting the claim for that listed case. -/
theorem tick_large_drift_no_fire_unsorted :
    sortedByNextFire ([⟨"a", rulePlus 20000, 5⟩, ⟨"b", rulePlus 10000, 10⟩] : List Task) ∧
    (tick ⟨[⟨"a", rulePlus 20000, 5⟩, ⟨"b", rulePlus 10000, 10⟩], false, 0⟩ 10800000).2.1 = 0 ∧
    ¬ sortedByNextFire (tick ⟨[⟨"a", rulePlus 20000, 5⟩, ⟨"b", rulePlus 10000, 10⟩], false, 0⟩ 10800000).1.tasks := by
  exact ⟨by decide, by decide, by decide⟩

/-- Claim C4: on a non-first tick whose distance to the previous tick is at
least three hours, the debounce leaves now unchanged and the queue entering
the execution pass is exactly the original tasks with next fire recomputed
via calculate_next(now) — each task whose rule yields an occurrence gets that
occurrence, which lies strictly after the new now, discarding the previously
scheduled one. -/
theorem tick_large_drift_recomputes (st : CronState) (now : Int)
    (hf : st.first_tick = false)
    (hd : 10800000 ≤ now - st.last_tick ∨ 10800000 ≤ st.last_tick - now) :
    effectiveNow st now = now ∧
    tick st now = tickCore st now ∧
    driftAdjusted st now = st.tasks.map (fun t => t.recalcKeep now) ∧
    (∀ t ∈ st.tasks, RuleWF t.rule → ∀ v, t.rule.next now = some v →
      (t.recalcKeep now).next_fire = v ∧ now < v) := by
  have h1 := effectiveNow_large st now hd
  refine ⟨h1, by rw [tick, h1], driftAdjusted_large st now hf hd, ?_⟩
  intro t ht hwf v hv
  constructor
  · unfold Task.recalcKeep
    rw [hv]
  · exact hwf now v hv

theorem tick_large_drift_recomputes_witness :
    effectiveNow ⟨[⟨"a", rulePlus 60, 5⟩], false, 0⟩ 10800000 = 10800000 ∧
    driftAdjusted ⟨[⟨"a", rulePlus 60, 5⟩], false, 0⟩ 10800000 =
      ([⟨"a", rulePlus 60, 5⟩] : List Task).map (fun t => t.recalcKeep 10800000) ∧
    ((⟨"a", rulePlus 60, 5⟩ : Task).recalcKeep 10800000).next_fire = 10800060 ∧
    (10800000 : Int) < 10800060 := by
  have h := tick_large_drift_recomputes ⟨[⟨"a", rulePlus 60, 5⟩], false, 0⟩ 10800000
    rfl (Or.inl (by decide))
  have h4 := h.2.2.2 ⟨"a", rulePlus 60, 5⟩ (List.mem_singleton_self _)
    (rulePlus_wf 60 (by decide)) 10800060 rfl
  exact ⟨h.1, h.2.2.1, h4.1, h4.2⟩

lemma scanSchedules_invalid (nowc : Int) :
    ∀ (entries : List (String × RuleSem)) (n rt : String),
      firstInvalid entries = some (n, rt) →
      (scanSchedules nowc entries).1 = some (n, rt) := by
  intro entries
  induction entries with
  | nil =>
    intro n rt h
    exact absurd h (by simp [firstInvalid])
  | cons p rest ih =>
    intro n rt h
    obtain ⟨pn, pr⟩ := p
    unfold firstInvalid at h
    unfold scanSchedules
    by_cases hv : pr.valid = true
    · rw [if_pos hv] at h
      rw [if_pos hv]
      dsimp only
      cases hnext : pr.next nowc with
      | some v =>
        simp only [hnext]
        exact ih n rt h
      | none =>
        simp only [hnext]
        exact ih n rt h
    · rw [if_neg hv] at h
      rw [if_neg hv]
      exact h

lemma scanSchedules_all_valid (nowc : Int) :
    ∀ (entries : List (String × RuleSem)),
      firstInvalid entries = none →
      scanSchedules nowc entries = (none, constructedTasks nowc entries) := by
  intro entries
  induction entries with
  | nil => intro _; rfl
  | cons p rest ih =>
    intro h
    obtain ⟨pn, pr⟩ := p
    unfold firstInvalid at h
    by_cases hv : pr.valid = true
    · rw [if_pos hv] at h
      unfold scanSchedules
      rw [if_pos hv]
      dsimp only
      rw [ih h]
      cases hnext : pr.next nowc with
      | some v => simp [constructedTasks, hnext]
      | none => simp [constructedTasks, hnext]
    · rw [if_neg hv] at h
      exact absurd h (by simp)

/-- Claim C6: the bulk add_schedule is all-or-nothing: when some rule in
the mapping is invalid, the state is returned unchanged (nothing inserted)
together with (false, name, rule) for the first offending entry in iteration
order; when every rule is valid the result flag is true and all constructed
tasks (those whose next occurrence exists) are appended and the queue sorted
once. -/
theorem add_schedule_bulk_all_or_nothing (st : CronState)
    (entries : List (String × RuleSem)) (nowc : Int) :
    (∀ n rt, firstInvalid entries = some (n, rt) →
      add_schedule_map st entries nowc = (st, (false, n, rt))) ∧
    (firstInvalid entries = none →
      (add_schedule_map st entries nowc).2 = (true, "", "") ∧
      (add_schedule_map st entries nowc).1.tasks =
        (if (constructedTasks nowc entries).isEmpty then st.tasks
         else sortTasks (st.tasks ++ constructedTasks nowc entries))) := by
  constructor
  · intro n rt h
    have hs := scanSchedules_invalid nowc entries n rt h
    unfold add_schedule_map
    dsimp only
    rw [hs]
  · intro h
    have hs := scanSchedules_all_valid nowc entries h
    unfold add_schedule_map
    dsimp only
    rw [hs]
    dsimp only
    constructor
    · split <;> rfl
    · split <;> rfl

theorem add_schedule_bulk_all_or_nothing_witness :
    add_schedule_map ⟨[], true, 0⟩ [("x", ruleBad)] 0 =
      (⟨[], true, 0⟩, (false, "x", "* * bad")) ∧
    (add_schedule_map ⟨[], true, 0⟩ [("y", rulePlus 60)] 0).2 = (true, "", "") :=
  ⟨(add_schedule_bulk_all_or_nothing ⟨[], true, 0⟩ [("x", ruleBad)] 0).1 "x" "* * bad" rfl,
   ((add_schedule_bulk_all_or_nothing ⟨[], true, 0⟩ [("y", rulePlus 60)] 0).2 rfl).1⟩

/-- Claim C5: on a non-first tick whose clock moved by less than three
hours (in particular any small backward jump), no forced recomputation
occurs: any task whose previously computed next fire time lies after the
effective tick time — e.g. one that already fired before the jump — is not
executed by this tick and survives in the queue with its next fire time
untouched, until real time reaches it. -/
theorem tick_small_backward_jump_no_refire (st : CronState) (now : Int) (t : Task)
    (hf : st.first_tick = false)
    (h1 : now - st.last_tick < 10800000) (h2 : -10800000 < now - st.last_tick)
    (hnd : (taskNames st.tasks).Nodup)
    (ht : t ∈ st.tasks)
    (hfut : effectiveNow st now < t.next_fire) :
    t ∈ (tick st now).1.tasks ∧ ∀ v, (t.name, v) ∉ (tick st now).2.2 := by
  have hda : driftAdjusted st (effectiveNow st now) = st.tasks :=
    driftAdjusted_effective_small st now hf h1 h2
  have hkey := execLoop_keeps_future (effectiveNow st now) st.tasks.length st.tasks 0 t
    hnd ht hfut
  constructor
  · apply mem_tickCore_tasks.mpr
    rw [hda]
    exact hkey.1
  · intro v
    have hsnd : (tick st now).2 =
        (execPass (effectiveNow st now) (driftAdjusted st (effectiveNow st now))).2 :=
      tickCore_snd st (effectiveNow st now)
    rw [hsnd, hda]
    exact hkey.2 v

theorem tick_small_backward_jump_no_refire_witness :
    (⟨"a", rulePlus 60, 4000⟩ : Task) ∈
      (tick ⟨[⟨"a", rulePlus 60, 4000⟩], false, 5000⟩ 2000).1.tasks ∧
    ("a", (4000 : Int)) ∉ (tick ⟨[⟨"a", rulePlus 60, 4000⟩], false, 5000⟩ 2000).2.2 := by
  have h := tick_small_backward_jump_no_refire ⟨[⟨"a", rulePlus 60, 4000⟩], false, 5000⟩
    2000 ⟨"a", rulePlus 60, 4000⟩ rfl (by decide) (by decide) (by decide)
    (List.mem_singleton_self _) (by decide)
  exact ⟨h.1, h.2 4000⟩

/-- Claim C3 (amended): after every public scheduler operation
(add_schedule single and bulk, remove_schedule, clear_schedules,
recalculate_schedule) the task queue is sorted in ascending next-fire order,
and after tick it is sorted provided some task fired or the tick was not a
≥ 3 h drift correction; the excluded case — a ≥ 3 h recomputation in which no
task fires — can leave the queue unsorted (see the counterexample). -/
theorem queue_sorted_after_operations (st : CronState) (n : String) (r : RuleSem)
    (entries : List (String × RuleSem)) (nowc now : Int)
    (hs : sortedByNextFire st.tasks) :
    sortedByNextFire (add_schedule st n r nowc).1.tasks ∧
    sortedByNextFire (add_schedule_map st entries nowc).1.tasks ∧
    sortedByNextFire (remove_schedule st n).tasks ∧
    sortedByNextFire (clear_schedules st).tasks ∧
    sortedByNextFire (recalculate_schedule st nowc).tasks ∧
    ((0 < (tick st now).2.1 ∨ st.first_tick = true ∨
        (now - st.last_tick < 10800000 ∧ -10800000 < now - st.last_tick)) →
      sortedByNextFire (tick st now).1.tasks) := by
  refine ⟨?_, ?_, ?_, ?_, ?_, ?_⟩
  · unfold add_schedule
    split
    · split
      · exact sortedByNextFire_sortTasks _
      · exact hs
    · exact hs
  · unfold add_schedule_map
    dsimp only
    split
    · exact hs
    · split
      · exact hs
      · exact sortedByNextFire_sortTasks _
  · exact List.Pairwise.sublist (removeFirstByName_sublist n st.tasks) hs
  · exact List.sorted_nil
  · exact sortedByNextFire_sortTasks _
  · intro hcond
    have htasks := tickCore_tasks st (effectiveNow st now)
    by_cases hres :
        0 < (execPass (effectiveNow st now) (driftAdjusted st (effectiveNow st now))).2.1
    · rw [if_pos hres] at htasks
      show sortedByNextFire (tickCore st (effectiveNow st now)).1.tasks
      rw [htasks]
      exact sortedByNextFire_sortTasks _
    · rw [if_neg hres] at htasks
      have hz :
          (execPass (effectiveNow st now) (driftAdjusted st (effectiveNow st now))).2.1 = 0 := by
        omega
      have hunch := execLoop_count_zero (effectiveNow st now) _ _ _ hz
      show sortedByNextFire (tickCore st (effectiveNow st now)).1.tasks
      rw [htasks]
      show sortedByNextFire (execLoop (effectiveNow st now)
        (driftAdjusted st (effectiveNow st now)).length
        (driftAdjusted st (effectiveNow st now)) 0).1
      rw [hunch]
      rcases hcond with hc | hc | hc
      · have : (tick st now).2.1 =
            (execPass (effectiveNow st now) (driftAdjusted st (effectiveNow st now))).2.1 := by
          have := tickCore_snd st (effectiveNow st now)
          exact congrArg Prod.fst this
        rw [this] at hc
        exact absurd hc hres
      · rw [driftAdjusted_first st _ hc]
        exact hs
      · cases hf : st.first_tick with
        | true =>
          rw [driftAdjusted_first st _ hf]
          exact hs
        | false =>
          rw [driftAdjusted_effective_small st now hf hc.1 hc.2]
          exact hs

theorem queue_sorted_after_operations_witness :
    sortedByNextFire (remove_schedule ⟨[⟨"a", rulePlus 60, 5⟩], true, 0⟩ "a").tasks ∧
    sortedByNextFire (tick ⟨[⟨"a", rulePlus 60, 5⟩], true, 0⟩ 100).1.tasks := by
  have h := queue_sorted_after_operations ⟨[⟨"a", rulePlus 60, 5⟩], true, 0⟩ "a"
    (rulePlus 5) [] 0 100 (by decide)
  exact ⟨h.2.2.1, h.2.2.2.2.2 (Or.inr (Or.inl rfl))⟩

lemma nodup_taskNames_append_single {l : List Task} {t : Task}
    (hnd : (taskNames l).Nodup) (hfresh : t.name ∉ taskNames l) :
    (taskNames (l ++ [t])).Nodup := by
  rw [show taskNames (l ++ [t]) = taskNames l ++ [t.name] by simp [taskNames]]
  rw [List.nodup_append]
  refine ⟨hnd, List.nodup_singleton _, ?_⟩
  intro a ha hb
  rw [List.mem_singleton.mp hb] at ha
  exact hfresh ha

lemma taskNames_scanSchedules_sublist (nowc : Int) :
    ∀ (entries : List (String × RuleSem)),
      (taskNames (scanSchedules nowc entries).2).Sublist (entries.map Prod.fst) := by
  intro entries
  induction entries with
  | nil => exact List.Sublist.refl _
  | cons p rest ih =>
    obtain ⟨pn, pr⟩ := p
    unfold scanSchedules
    by_cases hv : pr.valid = true
    · rw [if_pos hv]
      dsimp only
      cases hnext : pr.next nowc with
      | some v =>
        simp only [hnext]
        exact ih.cons₂ pn
      | none =>
        simp only [hnext]
        exact ih.cons pn
    · rw [if_neg hv]
      exact List.nil_sublist _

lemma nodup_tick_tasks (st : CronState) (now : Int)
    (hnd : (taskNames st.tasks).Nodup) :
    (taskNames (tick st now).1.tasks).Nodup := by
  have h1 : (taskNames (driftAdjusted st (effectiveNow st now))).Nodup := by
    rw [taskNames_driftAdjusted]
    exact hnd
  have h2 := execLoop_nodup (effectiveNow st now)
    (driftAdjusted st (effectiveNow st now)).length
    (driftAdjusted st (effectiveNow st now)) 0 h1
  have htasks := tickCore_tasks st (effectiveNow st now)
  show (taskNames (tickCore st (effectiveNow st now)).1.tasks).Nodup
  rw [htasks]
  split
  · exact (taskNames_sortTasks_perm _).nodup_iff.mpr h2
  · exact h2

/-- Claim C9 (amended): the engine itself never checks names, so
distinctness of queue names is preserved by every public operation only as
long as registrations use fresh names: remove, clear, recalculate and tick
preserve it unconditionally, the single add preserves it when the new name is
not already in the queue, and the bulk add preserves it when the entry names
are fresh and internally distinct.  add_schedule with an existing name
creates a duplicate (see the counterexample). -/
theorem nodup_names_preserved (st : CronState) (n : String) (r : RuleSem)
    (entries : List (String × RuleSem)) (nowc now : Int)
    (hnd : (taskNames st.tasks).Nodup) :
    (n ∉ taskNames st.tasks → (taskNames (add_schedule st n r nowc).1.tasks).Nodup) ∧
    (taskNames (remove_schedule st n).tasks).Nodup ∧
    (taskNames (clear_schedules st).tasks).Nodup ∧
    (taskNames (recalculate_schedule st nowc).tasks).Nodup ∧
    (taskNames (tick st now).1.tasks).Nodup ∧
    ((taskNames st.tasks ++ entries.map Prod.fst).Nodup →
      (taskNames (add_schedule_map st entries nowc).1.tasks).Nodup) := by
  refine ⟨?_, ?_, ?_, ?_, ?_, ?_⟩
  · intro hfresh
    unfold add_schedule
    split
    · split
      · exact (taskNames_sortTasks_perm _).nodup_iff.mpr
          (nodup_taskNames_append_single hnd hfresh)
      · exact hnd
    · exact hnd
  · exact (taskNames_removeFirstByName_sublist n st.tasks).nodup hnd
  · exact List.nodup_nil
  · refine (taskNames_sortTasks_perm _).nodup_iff.mpr ?_
    have : taskNames (st.tasks.map (fun t => t.recalcKeep (nowc + 1000))) =
        taskNames st.tasks := by
      simp [taskNames, List.map_map, Function.comp_def, Task.name_recalcKeep]
    rw [this]
    exact hnd
  · exact nodup_tick_tasks st now hnd
  · intro hbig
    unfold add_schedule_map
    dsimp only
    split
    · exact hnd
    · split
      · exact hnd
      · refine (taskNames_sortTasks_perm _).nodup_iff.mpr ?_
        have heq : taskNames (st.tasks ++ (scanSchedules nowc entries).2) =
            taskNames st.tasks ++ taskNames (scanSchedules nowc entries).2 := by
          simp [taskNames]
        rw [heq]
        refine List.Sublist.nodup ?_ hbig
        exact List.Sublist.append_left (taskNames_scanSchedules_sublist nowc entries) _

theorem nodup_names_preserved_witness :
    (taskNames (add_schedule ⟨[⟨"a", rulePlus 60, 5⟩], true, 0⟩ "b" (rulePlus 5) 0).1.tasks).Nodup ∧
    (taskNames (tick ⟨[⟨"a", rulePlus 60, 5⟩], true, 0⟩ 100).1.tasks).Nodup := by
  have h := nodup_names_preserved ⟨[⟨"a", rulePlus 60, 5⟩], true, 0⟩ "b" (rulePlus 5)
    [] 0 100 (by decide)
  exact ⟨h.1 (by decide), h.2.2.2.2.1⟩

lemma allWF_tick_tasks (st : CronState) (now : Int) (hwf : AllWF st.tasks) :
    AllWF (tick st now).1.tasks := by
  have h1 : AllWF (driftAdjusted st (effectiveNow st now)) :=
    allWF_driftAdjusted st (effectiveNow st now) hwf
  have h2 := execLoop_allWF (effectiveNow st now)
    (driftAdjusted st (effectiveNow st now)).length
    (driftAdjusted st (effectiveNow st now)) 0 h1
  have htasks := tickCore_tasks st (effectiveNow st now)
  show AllWF (tickCore st (effectiveNow st now)).1.tasks
  rw [htasks]
  split
  · intro u hu
    exact h2 u (mem_sortTasks.mp hu)
  · exact h2

/-- Claim C2: for a tick that is not the first one, arriving less than one
second after the previous accepted tick, the call behaves exactly as a tick
at last_tick (the clamped timestamp drives every expiry decision and is
recorded), and consequently no occurrence executed by the previous tick is
executed again by the debounced one: tick(t) then tick(t + 500 ms) never
runs the same occurrence of any task twice. -/
theorem tick_subsecond_debounce (st : CronState) (t1 t2 : Int)
    (hwf : AllWF st.tasks)
    (hnd : (taskNames st.tasks).Nodup)
    (h1 : t2 - (tick st t1).1.last_tick < 1000)
    (h2 : -1000 < t2 - (tick st t1).1.last_tick) :
    tick (tick st t1).1 t2 = tick (tick st t1).1 (tick st t1).1.last_tick ∧
    ∀ p ∈ (tick st t1).2.2, p ∉ (tick (tick st t1).1 t2).2.2 := by
  have hft : (tick st t1).1.first_tick = false := tick_first_tick st t1
  have ha : effectiveNow (tick st t1).1 t2 = (tick st t1).1.last_tick :=
    effectiveNow_clamp (tick st t1).1 t2 hft h1 h2
  have hb : effectiveNow (tick st t1).1 (tick st t1).1.last_tick = (tick st t1).1.last_tick :=
    effectiveNow_self_last (tick st t1).1
  constructor
  · show tickCore (tick st t1).1 (effectiveNow (tick st t1).1 t2) =
      tickCore (tick st t1).1 (effectiveNow (tick st t1).1 (tick st t1).1.last_tick)
    rw [ha, hb]
  · rintro ⟨n, v⟩ hp1 hp2
    -- the first tick runs its execution pass at the effective time τ
    have hτ : (tick st t1).1.last_tick = effectiveNow st t1 := tick_last_tick st t1
    have hwf1 : AllWF (driftAdjusted st (effectiveNow st t1)) :=
      allWF_driftAdjusted st (effectiveNow st t1) hwf
    have hnd1 : (taskNames (driftAdjusted st (effectiveNow st t1))).Nodup := by
      rw [taskNames_driftAdjusted]
      exact hnd
    have hp1' : (n, v) ∈
        (execPass (effectiveNow st t1) (driftAdjusted st (effectiveNow st t1))).2.2 := by
      have hsnd := tickCore_snd st (effectiveNow st t1)
      have : (tick st t1).2.2 =
          (execPass (effectiveNow st t1) (driftAdjusted st (effectiveNow st t1))).2.2 :=
        congrArg Prod.snd hsnd
      rw [this] at hp1
      exact hp1
    -- the second tick is clamped back to the same effective time
    have heff2 : effectiveNow (tick st t1).1 t2 = effectiveNow st t1 := by
      rw [ha, hτ]
    have hd2 : driftAdjusted (tick st t1).1 (effectiveNow st t1) = (tick st t1).1.tasks := by
      apply driftAdjusted_small (tick st t1).1 (effectiveNow st t1) hft
      · rw [hτ]
        omega
      · rw [hτ]
        omega
    have hp2' : (n, v) ∈ (execPass (effectiveNow st t1) (tick st t1).1.tasks).2.2 := by
      have hsnd := tickCore_snd (tick st t1).1 (effectiveNow (tick st t1).1 t2)
      have he : (tick (tick st t1).1 t2).2.2 =
          (execPass (effectiveNow (tick st t1).1 t2)
            (driftAdjusted (tick st t1).1 (effectiveNow (tick st t1).1 t2))).2.2 :=
        congrArg Prod.snd hsnd
      rw [he, heff2, hd2] at hp2
      exact hp2
    -- the pair executed by the second tick comes from a task of the queue
    have hwf2 : AllWF (tick st t1).1.tasks := allWF_tick_tasks st t1 hwf
    obtain ⟨u, hu, hun, hunf, hvle⟩ :=
      execLoop_executed_src (effectiveNow st t1) _ _ _ hwf2 n v hp2'
    -- that task survived the first tick's pass
    have hu1 : u ∈ (execPass (effectiveNow st t1) (driftAdjusted st (effectiveNow st t1))).1 := by
      exact mem_tickCore_tasks.mp hu
    rcases execLoop_future_or_quiet (effectiveNow st t1) _ _ _ hwf1 hnd1 u hu1 with hfu | hq
    · rw [hunf] at hfu
      omega
    · exact hq v (hun ▸ hp1')

theorem tick_subsecond_debounce_witness :
    (("a", (50 : Int)) ∈ (tick ⟨[⟨"a", rulePlus 60, 50⟩], true, 0⟩ 100).2.2) ∧
    ("a", (50 : Int)) ∉
      (tick (tick ⟨[⟨"a", rulePlus 60, 50⟩], true, 0⟩ 100).1 600).2.2 := by
  have hwf : AllWF ([⟨"a", rulePlus 60, 50⟩] : List Task) := by
    intro u hu
    rw [List.mem_singleton.mp hu]
    exact rulePlus_wf 60 (by decide)
  have h := tick_subsecond_debounce ⟨[⟨"a", rulePlus 60, 50⟩], true, 0⟩ 100 600
    hwf (by decide) (by decide) (by decide)
  exact ⟨by decide, h.2 ("a", 50) (by decide)⟩

end Libcron
